import Mathlib

/-!
Verification of the transcript-extraction / refinement pipeline of
GetOutVideo-api (`main.pyw`).

Python strings are modelled as `List Char` (`Str`); Python's `str.split()`,
`str.replace`, `str.strip`, `" ".join`, `re.sub(r'\s+', '_', ·)`, `rfind`
and slicing are given explicit executable models.  The functions
`split_text_into_chunks` and `_sanitize_filename` are translated line by
line from `GeminiProcessingThread`; the per-style chunk loop, the output
write block and the per-video loop of `GeminiProcessingThread.run` are
modelled as explicit state-passing functions, and the per-identifier
caption-retrieval logic of `TranscriptExtractionThread.run` is modelled as
a function over the collaborator outcomes.
-/

namespace GetOutVideo

/-- Python strings, modelled as lists of characters. -/
abbrev Str := List Char

/-- Coerce a Lean string literal to the `Str` model. -/
def str (s : String) : Str := s.data

/-- Python `str.isspace` relevant set: the six ASCII whitespace characters
recognised by `str.split()`, `str.strip()` and the regex `\s` (the model
restricts attention to ASCII whitespace). -/
def pyIsSpace (c : Char) : Bool :=
  c == ' ' || c == '\t' || c == '\n' || c == '\r' || c == '\x0b' || c == '\x0c'

/-- `startsWith s p` : does list `s` start with the pattern `p`?
(Python `str.startswith`, used to model `str.replace`'s scan.) -/
def startsWith : Str → Str → Bool
  | _, [] => true
  | [], _ :: _ => false
  | c :: cs, p :: ps => c == p && startsWith cs ps

/-- `containsSeq needle hay` : does `needle` occur contiguously in `hay`?
(Python's `in` operator on strings.) -/
def containsSeq (needle : Str) : Str → Bool
  | [] => decide (needle = [])
  | c :: cs => startsWith (c :: cs) needle || containsSeq needle cs

/-- Worker for `pySplitW`: `acc` is the word currently being read. -/
def splitGo (acc : Str) : Str → List Str
  | [] => if acc = [] then [] else [acc]
  | c :: cs =>
    if pyIsSpace c then
      (if acc = [] then splitGo [] cs else acc :: splitGo [] cs)
    else splitGo (acc ++ [c]) cs

/-- Python `text.split()` (no separator argument): split on runs of
whitespace, discarding empty words. -/
def pySplitW (s : Str) : List Str := splitGo [] s

/-- Python `" ".join(words)`. -/
def joinWords : List Str → Str
  | [] => []
  | [w] => w
  | w :: ws => w ++ ' ' :: joinWords ws

/-- Python `range(0, stop, step)` for `step > 0`: the `⌈stop/step⌉`
multiples of `step` below `stop`.  (`step = 0` raises `ValueError` in
Python; every modelled call site passes a positive step, and the model
returns `[]` there.) -/
def pyRange (stop step : Nat) : List Nat :=
  List.range' 0 ((stop + step - 1) / step) step

/-- Python `chunks[-2] += sep-combine; chunks.pop()` on a list of length
≥ 2: combine the last two elements with `comb`.  Lists of length < 2 are
returned unchanged (the source only reaches this under `len(chunks) > 1`). -/
def mergeLastTwo (comb : α → α → α) : List α → List α
  | [] => []
  | [a] => [a]
  | [a, b] => [comb a b]
  | a :: b :: c :: rest => a :: mergeLastTwo comb (b :: c :: rest)

/-- `GeminiProcessingThread.split_text_into_chunks(text, chunk_size,
min_chunk_size=500)` (main.pyw:1356-1376):

    words = text.split()
    chunks = [" ".join(words[i:i+chunk_size]) for i in range(0, len(words), chunk_size)]
    if len(chunks) > 1 and len(chunks[-1].split()) < min_chunk_size:
        chunks[-2] += " " + chunks[-1]
        chunks.pop()
    return chunks
-/
def split_text_into_chunks (text : Str) (chunk_size : Nat) (min_chunk_size : Nat := 500) :
    List Str :=
  let words := pySplitW text
  let chunks := (pyRange words.length chunk_size).map
    (fun i => joinWords ((words.drop i).take chunk_size))
  if 1 < chunks.length ∧ (pySplitW (chunks.getLastD [])).length < min_chunk_size then
    mergeLastTwo (fun a b => a ++ ' ' :: b) chunks
  else chunks

/-- Fuel-indexed worker for `pyReplace`; the fuel is the length of the
remaining string, which never runs out (each step consumes at least one
character when the pattern is non-empty). -/
def pyReplaceGo (old new : Str) : Nat → Str → Str
  | _, [] => []
  | 0, s => s
  | fuel + 1, c :: cs =>
    if old ≠ [] ∧ startsWith (c :: cs) old then
      new ++ pyReplaceGo old new fuel ((c :: cs).drop old.length)
    else c :: pyReplaceGo old new fuel cs

/-- Python `s.replace(old, new)` for a non-empty `old`: replace
non-overlapping occurrences left to right.  (Every modelled call site
passes a non-empty `old`.) -/
def pyReplace (old new s : Str) : Str := pyReplaceGo old new s.length s

/-- Python `s.strip()`: remove leading and trailing whitespace. -/
def pyStrip (s : Str) : Str :=
  ((s.dropWhile pyIsSpace).reverse.dropWhile pyIsSpace).reverse

/-- Python `re.sub(r'\s+', '_', s)`: replace each maximal run of
whitespace by a single underscore. -/
def collapseWS : Str → Str
  | [] => []
  | [c] => if pyIsSpace c then ['_'] else [c]
  | c :: d :: cs =>
    if pyIsSpace c then
      (if pyIsSpace d then collapseWS (d :: cs) else '_' :: collapseWS (d :: cs))
    else c :: collapseWS (d :: cs)

/-- Python `s.rfind(c)`: index of the last occurrence of `c`, as an
`Option` (`none` models Python's `-1`). -/
def pyRfind (c : Char) : Str → Option Nat
  | [] => none
  | d :: ds =>
    match pyRfind c ds with
    | some j => some (j + 1)
    | none => if d = c then some 0 else none

/-- The character class removed by `re.sub(r'[<>:"/\\|?*]', '', ·)`. -/
def badChars : List Char := ['<', '>', ':', '"', '/', '\\', '|', '?', '*']

/-- `GeminiProcessingThread._sanitize_filename(filename)`
(main.pyw:1417-1448).  Note the declaration has the single parameter
`filename` — no `self`. -/
def _sanitize_filename (filename : Str) : Str :=
  let s1 := filename.filter (fun c => !(badChars.contains c))
  let s2 := pyReplace (str "&") (str "and") s1
  let s3 := pyStrip s2
  let s4 := collapseWS s3
  let max_len := 200
  let s5 :=
    if max_len < s4.length then
      match pyRfind '_' (s4.take max_len) with
      | some cut_point => s4.take cut_point
      | none => s4.take max_len
    else s4
  if s5 = [] then str "untitled_video" else s5

/-! ## The refinement run (`GeminiProcessingThread.run`, main.pyw:1240-1354)

The thread's mutable environment is modelled by `Cfg` (the constructor
arguments plus the two external effects: the text-generation collaborator
and the write outcome per path) and the evolving observable state by `St`.
The externally mutable `_is_running` flag is modelled as the sequence of
values returned by its successive reads: the `n`-th read of the flag
returns `flag n`. -/

/-- A Python value passed as a call argument: either a string or the
thread object itself (the bound receiver of a method call). -/
inductive PyVal where
  | strVal (s : Str)
  | threadObj
  deriving DecidableEq

/-- A raised Python exception kind (only the ones the modelled code can
raise or catch are distinguished). -/
inductive PyExc where
  | typeError
  | ioError
  deriving DecidableEq

/-- Python call semantics for a function declared with exactly one
parameter whose body consumes a string (such as
`_sanitize_filename(filename)`): the call succeeds exactly when it
receives a single string argument; any other argument list raises
`TypeError` (wrong arity at the call, or a non-string reaching `re.sub`). -/
def pyCallFunction1 (body : Str → Str) : List PyVal → Except PyExc Str
  | [PyVal.strVal s] => Except.ok (body s)
  | _ => Except.error PyExc.typeError

/-- One parsed video section of the transcript file
(main.pyw:1272-1282): title, URL and transcript text. -/
structure Video where
  title : Str
  url : Str
  transcript : Str
  deriving DecidableEq

/-- The run's fixed context: constructor arguments of
`GeminiProcessingThread` plus the modelled external effects.
`gen` is the text-generation collaborator (`model.generate_content`,
deterministic response per prompt); `flag n` is the value of the `n`-th
read of `self._is_running`; `writeErr path = some k` means the write to
`path` raises `IOError` after `k` of its sequential `f.write` calls
succeed, `none` means the write completes. -/
structure Cfg where
  gen : Str → Str
  output_language : Str
  chunk_size : Nat
  selected_prompts : List (Str × Str)
  flag : Nat → Bool
  writeErr : Str → Option Nat
  output_dir : Str

/-- The observable state threaded through the run: `t` is the number of
`_is_running` reads so far, `calls` the prompts passed to the
text-generation collaborator in order, `written` the `(path, content)`
pairs present on disk, `errors` the `error_occurred` emissions. -/
structure St where
  t : Nat
  calls : List Str
  written : List (Str × Str)
  errors : List Str
  deriving DecidableEq

/-- The initial state of a run. -/
def initSt : St := ⟨0, [], [], []⟩

/-- The placeholder substituted by the output language
(`style_prompt.replace("[Language]", self.output_language)`). -/
def languagePlaceholder : Str := str "[Language]"

/-- The per-chunk loop of one style (main.pyw:1305-1324).  Returns the
updated state and `some full_video_response` on completion, or `none`
when the `_is_running` check fails (the source `return`s out of the whole
run).  `prev` mirrors the `previous_response` variable, which is assigned
but never used in the prompt (`context_prompt` stays empty). -/
def chunkLoop (cfg : Cfg) (style_prompt : Str) :
    List Str → Str → Str → St → St × Option Str
  | [], full, _prev, st => (st, some full)
  | chunk :: rest, full, _prev, st =>
    if cfg.flag st.t then
      let formatted_prompt := pyReplace languagePlaceholder cfg.output_language style_prompt
      let context_prompt : Str := []
      let full_prompt := context_prompt ++ formatted_prompt ++ str "\n\n" ++ chunk
      let response := cfg.gen full_prompt
      chunkLoop cfg style_prompt rest (full ++ response ++ str "\n\n") response
        { st with t := st.t + 1, calls := st.calls ++ [full_prompt] }
    else ({ st with t := st.t + 1 }, none)

/-- `os.path.join(self.output_dir, f"{sanitized_title} [{style_name}].md")`
(main.pyw:1327-1330), for a relative filename. -/
def stylePath (output_dir sanitized_title style_name : Str) : Str :=
  output_dir ++ '/' :: (sanitized_title ++ str " [" ++ style_name ++ str "].md")

/-- The three strings written sequentially to the final output file
(main.pyw:1334-1336). -/
def writeSequence (video_title video_url full_video_response : Str) : List Str :=
  [str "# " ++ video_title ++ str "\n\n",
   str "**Original Video URL:** " ++ video_url ++ str "\n\n",
   pyStrip full_video_response]

/-- The write block (main.pyw:1331-1342): `open(path, "w")` truncates the
file, then the three writes run in order; an `IOError` after `k` writes
leaves the concatenation of the first `k` strings at the final path and
emits `error_occurred`; the loop then `continue`s with the next style. -/
def doWrite (cfg : Cfg) (path video_title video_url full : Str) (st : St) : St :=
  let plan := writeSequence video_title video_url full
  match cfg.writeErr path with
  | none => { st with written := st.written ++ [(path, plan.flatten)] }
  | some k =>
    { st with
      written := st.written ++ [(path, (plan.take k).flatten)],
      errors := st.errors ++ [str "Error writing file " ++ path] }

/-- The per-style loop of one video (main.pyw:1300-1342).  The returned
`Bool` is `false` when a cancellation check made the source `return` out
of the run. -/
def styleLoop (cfg : Cfg) (sanitized_title video_title video_url : Str)
    (chunks : List Str) : List (Str × Str) → St → St × Bool
  | [], st => (st, true)
  | (style_name, style_prompt) :: rest, st =>
    match chunkLoop cfg style_prompt chunks (str "") (str "") st with
    | (st', some full) =>
      let path := stylePath cfg.output_dir sanitized_title style_name
      styleLoop cfg sanitized_title video_title video_url chunks rest
        (doWrite cfg path video_title video_url full st')
    | (st', none) => (st', false)

/-- The per-video loop of `GeminiProcessingThread.run`
(main.pyw:1268-1345) together with the surrounding `try`/`except`
(main.pyw:1258, 1351-1354).  `self._sanitize_filename(video_title)`
(main.pyw:1290) is a bound-method call, so it passes the thread object
plus the title — two arguments — to the one-parameter function
`_sanitize_filename`; the resulting `TypeError` propagates to the outer
handler, which emits `error_occurred` and ends the run.  The returned
`Bool` is `false` when the run ended early (cancellation or exception). -/
def videosLoop (cfg : Cfg) : List Video → St → St × Bool
  | [], st => (st, true)
  | v :: rest, st =>
    if cfg.flag st.t then
      let st1 : St := { st with t := st.t + 1 }
      if v.transcript = [] then videosLoop cfg rest st1
      else
        match pyCallFunction1 _sanitize_filename [PyVal.threadObj, PyVal.strVal v.title] with
        | Except.error _ =>
          ({ st1 with errors := st1.errors ++ [str "Gemini processing error: TypeError"] }, false)
        | Except.ok sanitized_title =>
          let chunks := split_text_into_chunks v.transcript cfg.chunk_size 500
          match styleLoop cfg sanitized_title v.title v.url chunks cfg.selected_prompts st1 with
          | (st2, true) => videosLoop cfg rest st2
          | (st2, false) => (st2, false)
    else ({ st with t := st.t + 1 }, false)

/-! ## Transcript acquisition (`TranscriptExtractionThread.run`,
main.pyw:1093-1153), per identifier -/

/-- Outcome of `YouTubeTranscriptApi.get_transcript(video_id)`
(main.pyw:1100): the caption segments on success, or one of the two
distinguished exceptions, or any other exception. -/
inductive CapResult where
  | ok (segments : List Str)
  | transcriptsDisabled
  | noTranscriptFound
  | otherError
  deriving DecidableEq

/-- Outcome of `get_transcript_with_ai_stt(...)` (main.pyw:1114), the
speech-to-text collaborator: a returned string, a returned `None`, or a
raised exception. -/
inductive SttResult where
  | ok (t : Str)
  | returnsNone
  | raises
  deriving DecidableEq

/-- Observable outcome of the caption-retrieval block for one identifier:
the `transcript` variable after the block (`none` models Python `None`),
the `transcript_source` variable, the number of calls made to the
speech-to-text collaborator, whether the generic `except Exception` branch
logged (main.pyw:1130-1136), and whether a record was written to the
transcript file (`if transcript:` — main.pyw:1140). -/
structure AcquireOutcome where
  transcript : Option Str
  transcript_source : Str
  sttInvocations : Nat
  loggedOther : Bool
  written : Bool
  deriving DecidableEq

/-- The caption-retrieval block with its exception handlers
(main.pyw:1093-1153) for one identifier.  On `TranscriptsDisabled` or
`NoTranscriptFound` the speech-to-text collaborator is invoked (once); on
any other retrieval error the branch at main.pyw:1130-1136 only logs and
sets `transcript = None` — it does not invoke the collaborator. -/
def acquireVideo (cap : CapResult) (stt : SttResult) : AcquireOutcome :=
  match cap with
  | CapResult.ok segments =>
    let t := joinWords segments
    ⟨some t, str "Standard API", 0, false, t ≠ []⟩
  | CapResult.transcriptsDisabled | CapResult.noTranscriptFound =>
    (match stt with
     | SttResult.ok t =>
       if t ≠ [] then ⟨some t, str "AI STT Fallback", 1, false, true⟩
       else ⟨some t, str "Unknown", 1, false, false⟩
     | SttResult.returnsNone => ⟨none, str "Unknown", 1, false, false⟩
     | SttResult.raises => ⟨none, str "Unknown", 1, false, false⟩)
  | CapResult.otherError => ⟨none, str "Unknown", 0, true, false⟩

/-! ## Word-level view of the chunker, used by the proofs -/

/-- The word-index windows underlying the chunk comprehension:
`words[i:i+chunk_size]` for `i in range(0, len(words), chunk_size)`. -/
def wchunks (ws : List Str) (chunk_size : Nat) : List (List Str) :=
  (pyRange ws.length chunk_size).map (fun i => (ws.drop i).take chunk_size)

/-- Word-level form of `split_text_into_chunks` applied to a word list:
windows plus the tail-merge rule, merging by list append. -/
def wordChunks (ws : List Str) (chunk_size min_chunk_size : Nat) : List (List Str) :=
  let chunks := wchunks ws chunk_size
  if 1 < chunks.length ∧ (chunks.getLastD []).length < min_chunk_size then
    mergeLastTwo (· ++ ·) chunks
  else chunks

/-- The prompt built for one chunk (main.pyw:1309-1313): empty
continuation context, then the language-substituted style template, then
two newlines, then the chunk. -/
def mkPrompt (output_language style_prompt chunk : Str) : Str :=
  pyReplace languagePlaceholder output_language style_prompt ++ str "\n\n" ++ chunk

/-- The full per-style response accumulated over all chunks when no
cancellation intervenes: each chunk contributes its generated text plus a
blank line (main.pyw:1321). -/
def jobBody (gen : Str → Str) (output_language style_prompt : Str) :
    List Str → Str → Str
  | [], full => full
  | chunk :: rest, full =>
    jobBody gen output_language style_prompt rest
      (full ++ gen (mkPrompt output_language style_prompt chunk) ++ str "\n\n")

/-- The `(path, content)` entry left on disk by the write block for one
style, given the write outcome for its path: the complete three-part
document on success, the concatenation of the first `k` parts when the
write raised after `k` parts. -/
def styleEntry (cfg : Cfg) (sanitized_title video_title video_url : Str)
    (chunks : List Str) (pr : Str × Str) : Str × Str :=
  let path := stylePath cfg.output_dir sanitized_title pr.1
  let plan := writeSequence video_title video_url
    (jobBody cfg.gen cfg.output_language pr.2 chunks (str ""))
  (path,
   match cfg.writeErr path with
   | none => plan.flatten
   | some k => (plan.take k).flatten)

/-- The `error_occurred` emission of the write block for one style, when
its write raises. -/
def styleError (cfg : Cfg) (sanitized_title : Str) (pr : Str × Str) : Option Str :=
  let path := stylePath cfg.output_dir sanitized_title pr.1
  match cfg.writeErr path with
  | none => none
  | some _ => some (str "Error writing file " ++ path)

/-- The 150,000-word transcript of the end-to-end scenario: 150,000
single-letter words separated by single spaces. -/
def text150k : Str := joinWords (List.replicate 150000 (str "a"))

/-! ## Lemmas: `pySplitW` and `joinWords` -/

theorem splitGo_append_word (w : Str) (hw : ∀ c ∈ w, pyIsSpace c = false) :
    ∀ acc rest, splitGo acc (w ++ rest) = splitGo (acc ++ w) rest := by
  induction w with
  | nil => intro acc rest; simp
  | cons c cs ih =>
    intro acc rest
    have hc : pyIsSpace c = false := hw c (by simp)
    have hrec := ih (fun d hd => hw d (by simp [hd])) (acc ++ [c]) rest
    simp only [List.cons_append, splitGo, hc, Bool.false_eq_true, if_false, List.append_eq]
    rw [hrec]
    simp

theorem joinWords_cons (w : Str) (ws : List Str) (h : ws ≠ []) :
    joinWords (w :: ws) = w ++ ' ' :: joinWords ws := by
  cases ws with
  | nil => exact absurd rfl h
  | cons w' t => rfl

theorem pySplitW_joinWords (ws : List Str)
    (h : ∀ w ∈ ws, w ≠ [] ∧ ∀ c ∈ w, pyIsSpace c = false) :
    pySplitW (joinWords ws) = ws := by
  induction ws with
  | nil => rfl
  | cons w t ih =>
    obtain ⟨hw, hwc⟩ := h w (by simp)
    cases t with
    | nil =>
      show splitGo [] (joinWords [w]) = [w]
      have : joinWords [w] = w ++ [] := by simp [joinWords]
      rw [this, splitGo_append_word w hwc [] []]
      simp [splitGo, hw]
    | cons w' t' =>
      rw [joinWords_cons w (w' :: t') (by simp)]
      show splitGo [] (w ++ ' ' :: joinWords (w' :: t')) = w :: w' :: t'
      rw [splitGo_append_word w hwc [] (' ' :: joinWords (w' :: t'))]
      simp only [List.nil_append]
      have hsp : pyIsSpace ' ' = true := by decide
      have hrec : splitGo [] (joinWords (w' :: t')) = w' :: t' :=
        ih (fun u hu => h u (by simp [hu]))
      simp [splitGo, hsp, hw, hrec]

theorem splitGo_clean (s : Str) :
    ∀ acc, (∀ c ∈ acc, pyIsSpace c = false) →
      ∀ u ∈ splitGo acc s, u ≠ [] ∧ ∀ c ∈ u, pyIsSpace c = false := by
  induction s with
  | nil =>
    intro acc hacc u hu
    by_cases h : acc = []
    · simp [splitGo, h] at hu
    · simp [splitGo, h] at hu
      exact hu ▸ ⟨h, hacc⟩
  | cons c cs ih =>
    intro acc hacc u hu
    by_cases hc : pyIsSpace c = true
    · simp only [splitGo, hc, if_true] at hu
      by_cases h : acc = []
      · simp only [h, if_true, reduceIte] at hu
        exact ih [] (by simp) u hu
      · simp only [if_neg h] at hu
        rcases List.mem_cons.mp hu with h1 | h1
        · exact h1 ▸ ⟨h, hacc⟩
        · exact ih [] (by simp) u h1
    · have hc' : pyIsSpace c = false := by simpa using hc
      simp only [splitGo, hc', Bool.false_eq_true, if_false] at hu
      refine ih (acc ++ [c]) ?_ u hu
      intro d hd
      rcases List.mem_append.mp hd with h1 | h1
      · exact hacc d h1
      · simp at h1; exact h1 ▸ hc'

theorem pySplitW_clean (s : Str) :
    ∀ u ∈ pySplitW s, u ≠ [] ∧ ∀ c ∈ u, pyIsSpace c = false :=
  splitGo_clean s [] (by simp)

theorem joinWords_append (a b : List Str) (ha : a ≠ []) (hb : b ≠ []) :
    joinWords (a ++ b) = joinWords a ++ ' ' :: joinWords b := by
  induction a with
  | nil => exact absurd rfl ha
  | cons w t ih =>
    cases t with
    | nil =>
      cases b with
      | nil => exact absurd rfl hb
      | cons b' bt => simp [joinWords_cons, joinWords]
    | cons w' t' =>
      rw [List.cons_append, joinWords_cons w ((w' :: t') ++ b) (by simp),
        joinWords_cons w (w' :: t') (by simp), ih (by simp)]
      simp

/-! ## Lemmas: `pyRange` and the word windows `wchunks` -/

theorem ceilDiv_pos_step (cs n : Nat) (hcs : 0 < cs) (hn : 0 < n) :
    (n + cs - 1) / cs = (n - cs + cs - 1) / cs + 1 := by
  rcases le_or_lt cs n with h | h
  · have : n + cs - 1 = (n - cs + cs - 1) + cs := by omega
    rw [this, Nat.add_div_right _ hcs]
  · have h0 : n - cs = 0 := by omega
    have h1 : n + cs - 1 = (n - 1) + cs := by omega
    rw [h0, h1, Nat.add_div_right _ hcs, Nat.zero_add, Nat.div_eq_of_lt (by omega),
      Nat.div_eq_of_lt (by omega)]

theorem pyRange_zero (step : Nat) : pyRange 0 step = [] := by
  unfold pyRange
  rcases Nat.eq_zero_or_pos step with h | h
  · subst h; rfl
  · rw [Nat.div_eq_of_lt (by omega)]; rfl

theorem pyRange_succ (stop step : Nat) (hs : 0 < step) (h : 0 < stop) :
    pyRange stop step = 0 :: (pyRange (stop - step) step).map (step + ·) := by
  unfold pyRange
  rw [ceilDiv_pos_step step stop hs h, List.range'_succ, List.map_add_range']
  simp

theorem wchunks_nil (cs : Nat) : wchunks [] cs = [] := by
  simp [wchunks, pyRange_zero]

theorem wchunks_cons (ws : List Str) (cs : Nat) (hcs : 0 < cs) (h : ws ≠ []) :
    wchunks ws cs = ws.take cs :: wchunks (ws.drop cs) cs := by
  have hlen : 0 < ws.length := List.length_pos.mpr h
  unfold wchunks
  rw [pyRange_succ ws.length cs hcs hlen, List.map_cons, List.map_map, List.length_drop]
  congr 1
  apply List.map_congr_left
  intro i _
  simp only [Function.comp_apply]
  rw [List.drop_drop, Nat.add_comm]

theorem wchunks_length (ws : List Str) (cs : Nat) :
    (wchunks ws cs).length = (ws.length + cs - 1) / cs := by
  simp [wchunks, pyRange]

theorem flatten_wchunks (cs : Nat) (hcs : 0 < cs) :
    ∀ ws : List Str, (wchunks ws cs).flatten = ws := by
  have H : ∀ n (ws : List Str), ws.length ≤ n → (wchunks ws cs).flatten = ws := by
    intro n
    induction n with
    | zero =>
      intro ws h
      have : ws = [] := List.eq_nil_of_length_eq_zero (Nat.le_zero.mp h)
      subst this; simp [wchunks_nil]
    | succ n ih =>
      intro ws h
      cases ws with
      | nil => simp [wchunks_nil]
      | cons w t =>
        rw [wchunks_cons (w :: t) cs hcs (by simp), List.flatten_cons,
          ih ((w :: t).drop cs) (by rw [List.length_drop]; simp at h ⊢; omega)]
        exact List.take_append_drop cs (w :: t)
  exact fun ws => H ws.length ws le_rfl

theorem wchunks_mem (ws : List Str) (cs : Nat) (hcs : 0 < cs) :
    ∀ u ∈ wchunks ws cs, u ≠ [] ∧ ∀ x ∈ u, x ∈ ws := by
  have H : ∀ n (ws : List Str), ws.length ≤ n →
      ∀ u ∈ wchunks ws cs, u ≠ [] ∧ ∀ x ∈ u, x ∈ ws := by
    intro n
    induction n with
    | zero =>
      intro ws h u hu
      have : ws = [] := List.eq_nil_of_length_eq_zero (Nat.le_zero.mp h)
      subst this; simp [wchunks_nil] at hu
    | succ n ih =>
      intro ws h u hu
      cases ws with
      | nil => simp [wchunks_nil] at hu
      | cons w t =>
        rw [wchunks_cons (w :: t) cs hcs (by simp)] at hu
        rcases List.mem_cons.mp hu with h1 | h1
        · subst h1
          constructor
          · cases cs with
            | zero => omega
            | succ k => simp [List.take_cons]
          · intro x hx; exact List.mem_of_mem_take hx
        · have hlen : ((w :: t).drop cs).length ≤ n := by
            rw [List.length_drop]; simp at h ⊢; omega
          obtain ⟨h2, h3⟩ := ih _ hlen u h1
          exact ⟨h2, fun x hx => List.mem_of_mem_drop (h3 x hx)⟩
  exact H ws.length ws le_rfl

theorem wchunks_dropLast_length (ws : List Str) (cs : Nat) (hcs : 0 < cs) :
    ∀ u ∈ (wchunks ws cs).dropLast, u.length = cs := by
  have H : ∀ n (ws : List Str), ws.length ≤ n →
      ∀ u ∈ (wchunks ws cs).dropLast, u.length = cs := by
    intro n
    induction n with
    | zero =>
      intro ws h u hu
      have : ws = [] := List.eq_nil_of_length_eq_zero (Nat.le_zero.mp h)
      subst this; simp [wchunks_nil] at hu
    | succ n ih =>
      intro ws h u hu
      cases ws with
      | nil => simp [wchunks_nil] at hu
      | cons w t =>
        rw [wchunks_cons (w :: t) cs hcs (by simp)] at hu
        by_cases hrest : wchunks ((w :: t).drop cs) cs = []
        · rw [hrest] at hu; simp at hu
        · rw [List.dropLast_cons_of_ne_nil hrest] at hu
          rcases List.mem_cons.mp hu with h1 | h1
          · subst h1
            rw [List.length_take]
            have hne : ((w :: t).drop cs) ≠ [] := by
              intro hdrop
              rw [hdrop, wchunks_nil] at hrest
              exact hrest rfl
            have := List.length_pos.mpr hne
            rw [List.length_drop] at this
            omega
          · have hlen : ((w :: t).drop cs).length ≤ n := by
              rw [List.length_drop]; simp at h ⊢; omega
            exact ih _ hlen u h1
  exact H ws.length ws le_rfl

/-! ## Lemmas: `mergeLastTwo` and `getLastD` -/

theorem mergeLastTwo_append_pair (comb : α → α → α) (l : List α) (a b : α) :
    mergeLastTwo comb (l ++ [a, b]) = l ++ [comb a b] := by
  induction l with
  | nil => rfl
  | cons x t ih =>
    cases t with
    | nil => rfl
    | cons y u =>
      cases u with
      | nil => simp only [List.cons_append, mergeLastTwo, List.append_eq] at ih ⊢; rw [ih]
      | cons z v =>
        simp only [List.cons_append, mergeLastTwo, List.append_eq] at ih ⊢
        rw [ih]

theorem flatten_mergeLastTwo (l : List (List α)) :
    (mergeLastTwo (· ++ ·) l).flatten = l.flatten := by
  induction l with
  | nil => rfl
  | cons x t ih =>
    cases t with
    | nil => rfl
    | cons y u =>
      cases u with
      | nil => simp [mergeLastTwo]
      | cons z v =>
        simp only [mergeLastTwo, List.flatten_cons] at ih ⊢
        rw [ih]

theorem mergeLastTwo_mem (comb : α → α → α) (l : List α) :
    ∀ u ∈ mergeLastTwo comb l,
      u ∈ l ∨ ∃ a b, a ∈ l ∧ b ∈ l ∧ u = comb a b := by
  induction l with
  | nil => intro u hu; simp [mergeLastTwo] at hu
  | cons x t ih =>
    intro u hu
    cases t with
    | nil => simp [mergeLastTwo] at hu; exact Or.inl (by simp [hu])
    | cons y u' =>
      cases u' with
      | nil =>
        simp only [mergeLastTwo, List.mem_singleton] at hu
        exact Or.inr ⟨x, y, by simp, by simp, hu⟩
      | cons z v =>
        simp only [mergeLastTwo, List.mem_cons] at hu
        rcases hu with h1 | h1
        · exact Or.inl (by simp [h1])
        · rcases ih u h1 with h2 | ⟨a, b, ha, hb, hab⟩
          · exact Or.inl (List.mem_cons_of_mem x h2)
          · exact Or.inr ⟨a, b, List.mem_cons_of_mem x ha, List.mem_cons_of_mem x hb, hab⟩

theorem mergeLastTwo_map_joinWords (l : List (List Str)) (h : ∀ x ∈ l, x ≠ []) :
    (mergeLastTwo (· ++ ·) l).map joinWords
      = mergeLastTwo (fun a b => a ++ ' ' :: b) (l.map joinWords) := by
  induction l with
  | nil => rfl
  | cons x t ih =>
    cases t with
    | nil => rfl
    | cons y u =>
      cases u with
      | nil =>
        simp only [mergeLastTwo, List.map_cons, List.map_nil, List.map_singleton]
        rw [joinWords_append x y (h x (by simp)) (h y (by simp))]
      | cons z v =>
        simp only [mergeLastTwo, List.map_cons] at ih ⊢
        rw [ih (fun w hw => h w (List.mem_cons_of_mem x hw))]

theorem getLastD_map (f : α → β) (l : List α) (d : α) :
    (l.map f).getLastD (f d) = f (l.getLastD d) := by
  induction l generalizing d with
  | nil => rfl
  | cons x t ih => simp only [List.map_cons, List.getLastD_cons]; exact ih x

theorem getLastD_mem (l : List α) (d : α) (h : l ≠ []) : l.getLastD d ∈ l := by
  induction l generalizing d with
  | nil => exact absurd rfl h
  | cons x t ih =>
    cases t with
    | nil => simp
    | cons y u =>
      rw [List.getLastD_cons]
      exact List.mem_cons_of_mem x (ih x (by simp))

/-! ## The bridge: `split_text_into_chunks` as the word-level chunker -/

theorem split_eq_wordChunks (text : Str) (cs m : Nat) (hcs : 0 < cs) :
    split_text_into_chunks text cs m = (wordChunks (pySplitW text) cs m).map joinWords := by
  simp only [split_text_into_chunks, wordChunks]
  set ws := pySplitW text with hws
  have hmap : (pyRange ws.length cs).map (fun i => joinWords ((ws.drop i).take cs))
      = (wchunks ws cs).map joinWords := by
    unfold wchunks; rw [List.map_map]; rfl
  rw [hmap]
  by_cases hempty : wchunks ws cs = []
  · simp [hempty]
  · have hlast : (((wchunks ws cs).map joinWords).getLastD []) =
        joinWords ((wchunks ws cs).getLastD []) := by
      have : ([] : Str) = joinWords [] := rfl
      rw [this, getLastD_map]
    have hlastmem := getLastD_mem (wchunks ws cs) [] hempty
    obtain ⟨hlne, hlsub⟩ := wchunks_mem ws cs hcs _ hlastmem
    have hclean : ∀ w ∈ (wchunks ws cs).getLastD [], w ≠ [] ∧ ∀ c ∈ w, pyIsSpace c = false :=
      fun w hw => pySplitW_clean text w (hws ▸ hlsub w hw)
    have hsplit : pySplitW (joinWords ((wchunks ws cs).getLastD [])) =
        (wchunks ws cs).getLastD [] := pySplitW_joinWords _ hclean
    rw [hlast, hsplit, List.length_map]
    by_cases hguard : 1 < (wchunks ws cs).length ∧ ((wchunks ws cs).getLastD []).length < m
    · rw [if_pos hguard, if_pos hguard]
      exact (mergeLastTwo_map_joinWords (wchunks ws cs)
        (fun x hx => (wchunks_mem ws cs hcs x hx).1)).symm
    · rw [if_neg hguard, if_neg hguard]

/-! ## Word-level consequences: the lossless-partition and tail-merge facts -/

theorem flatten_wordChunks (ws : List Str) (cs m : Nat) (hcs : 0 < cs) :
    (wordChunks ws cs m).flatten = ws := by
  unfold wordChunks
  by_cases hguard : 1 < (wchunks ws cs).length ∧ ((wchunks ws cs).getLastD []).length < m
  · rw [if_pos hguard, flatten_mergeLastTwo, flatten_wchunks cs hcs]
  · rw [if_neg hguard, flatten_wchunks cs hcs]

theorem wordChunks_words_clean (text : Str) (cs m : Nat) (hcs : 0 < cs) :
    ∀ u ∈ wordChunks (pySplitW text) cs m,
      ∀ w ∈ u, w ≠ [] ∧ ∀ c ∈ w, pyIsSpace c = false := by
  intro u hu w hw
  have hsub : ∀ v ∈ wchunks (pySplitW text) cs, ∀ x ∈ v, x ∈ pySplitW text :=
    fun v hv => (wchunks_mem (pySplitW text) cs hcs v hv).2
  unfold wordChunks at hu
  by_cases hguard : 1 < (wchunks (pySplitW text) cs).length ∧
      ((wchunks (pySplitW text) cs).getLastD []).length < m
  · rw [if_pos hguard] at hu
    rcases mergeLastTwo_mem _ _ u hu with h1 | ⟨a, b, ha, hb, hab⟩
    · exact pySplitW_clean text w (hsub u h1 w hw)
    · subst hab
      rcases List.mem_append.mp hw with h2 | h2
      · exact pySplitW_clean text w (hsub a ha w h2)
      · exact pySplitW_clean text w (hsub b hb w h2)
  · rw [if_neg hguard] at hu
    exact pySplitW_clean text w (hsub u hu w hw)

theorem chunks_flatten_words (text : Str) (cs m : Nat) (hcs : 0 < cs) :
    ((split_text_into_chunks text cs m).map pySplitW).flatten = pySplitW text := by
  rw [split_eq_wordChunks text cs m hcs, List.map_map]
  have : (wordChunks (pySplitW text) cs m).map (pySplitW ∘ joinWords)
      = (wordChunks (pySplitW text) cs m).map id := by
    apply List.map_congr_left
    intro u hu
    exact pySplitW_joinWords u (wordChunks_words_clean text cs m hcs u hu)
  rw [this, List.map_id, flatten_wordChunks (pySplitW text) cs m hcs]

theorem exists_append_pair (l : List α) (h : 2 ≤ l.length) :
    ∃ F a b, l = F ++ [a, b] := by
  cases hr : l.reverse with
  | nil =>
    rw [List.reverse_eq_nil_iff] at hr
    subst hr; simp at h
  | cons b t =>
    cases t with
    | nil =>
      have h2 := congrArg List.reverse hr
      simp at h2
      subst h2; simp at h
    | cons a F =>
      refine ⟨F.reverse, a, b, ?_⟩
      have h2 := congrArg List.reverse hr
      simpa using h2

theorem tail_merge_floor (text : Str) (cs m : Nat) (hcs : 0 < cs) (hm : m ≤ cs)
    (h2 : 2 ≤ (wchunks (pySplitW text) cs).length)
    (hlt : ((wchunks (pySplitW text) cs).getLastD []).length < m) :
    m ≤ (pySplitW ((split_text_into_chunks text cs m).getLastD [])).length := by
  obtain ⟨F, a, b, hW⟩ := exists_append_pair (wchunks (pySplitW text) cs) h2
  have hlastb : (wchunks (pySplitW text) cs).getLastD [] = b := by
    rw [hW, show F ++ [a, b] = (F ++ [a]) ++ [b] by simp]; simp
  have hguard : 1 < (wchunks (pySplitW text) cs).length ∧
      ((wchunks (pySplitW text) cs).getLastD []).length < m := ⟨by omega, hlt⟩
  have hmerged : wordChunks (pySplitW text) cs m = F ++ [a ++ b] := by
    unfold wordChunks
    rw [if_pos hguard, hW, mergeLastTwo_append_pair]
  have halen : a.length = cs := by
    apply wchunks_dropLast_length (pySplitW text) cs hcs
    rw [hW, show F ++ [a, b] = (F ++ [a]) ++ [b] by simp, List.dropLast_concat]
    simp
  have hlast2 : (split_text_into_chunks text cs m).getLastD [] = joinWords (a ++ b) := by
    rw [split_eq_wordChunks text cs m hcs, hmerged,
      show ([] : Str) = joinWords [] from rfl, getLastD_map]
    congr 1
    simp
  have habmem : a ++ b ∈ wordChunks (pySplitW text) cs m := by
    rw [hmerged]; simp
  have hsplitab : pySplitW (joinWords (a ++ b)) = a ++ b :=
    pySplitW_joinWords _ (wordChunks_words_clean text cs m hcs _ habmem)
  rw [hlast2, hsplitab, List.length_append]
  omega

/-! ## The 150,000-word scenario -/

theorem words150k : pySplitW text150k = List.replicate 150000 (str "a") := by
  apply pySplitW_joinWords
  intro w hw
  rw [List.eq_of_mem_replicate hw]
  exact ⟨by decide, by decide⟩

theorem wchunks_replicate_step (x : Str) (n cs : Nat) (hcs : 0 < cs) (hn : 0 < n) :
    wchunks (List.replicate n x) cs
      = List.replicate (min cs n) x :: wchunks (List.replicate (n - cs) x) cs := by
  rw [wchunks_cons (List.replicate n x) cs hcs
    (by intro h; have := congrArg List.length h; simp at this; omega)]
  rw [List.take_replicate, List.drop_replicate]

theorem wchunks150k : wchunks (List.replicate 150000 (str "a")) 70000
    = [List.replicate 70000 (str "a"), List.replicate 70000 (str "a"),
       List.replicate 10000 (str "a")] := by
  rw [wchunks_replicate_step (str "a") 150000 70000 (by norm_num) (by norm_num),
    show min 70000 150000 = 70000 by norm_num, show 150000 - 70000 = 80000 by norm_num,
    wchunks_replicate_step (str "a") 80000 70000 (by norm_num) (by norm_num),
    show min 70000 80000 = 70000 by norm_num, show 80000 - 70000 = 10000 by norm_num,
    wchunks_replicate_step (str "a") 10000 70000 (by norm_num) (by norm_num),
    show min 70000 10000 = 10000 by norm_num, show 10000 - 70000 = 0 by norm_num,
    show List.replicate 0 (str "a") = ([] : List Str) from rfl, wchunks_nil]

theorem chunks150k_len : (split_text_into_chunks text150k 70000 500).length = 3 := by
  rw [split_eq_wordChunks text150k 70000 500 (by norm_num), List.length_map]
  unfold wordChunks
  rw [words150k, wchunks150k]
  rw [if_neg]
  · rfl
  · intro hcon
    have hlen := hcon.2
    rw [show ([List.replicate 70000 (str "a"), List.replicate 70000 (str "a"),
      List.replicate 10000 (str "a")].getLastD []) = List.replicate 10000 (str "a")
      from rfl, List.length_replicate] at hlen
    omega

/-! ## Lemmas: the refinement-loop model -/

theorem chunkLoop_flag_true (cfg : Cfg) (hflag : ∀ n, cfg.flag n = true) (sp : Str) :
    ∀ (chunks : List Str) (full prev : Str) (st : St),
      chunkLoop cfg sp chunks full prev st =
        ({ st with
           t := st.t + chunks.length,
           calls := st.calls ++ chunks.map (mkPrompt cfg.output_language sp) },
         some (jobBody cfg.gen cfg.output_language sp chunks full)) := by
  intro chunks
  induction chunks with
  | nil =>
    intro full prev st
    simp [chunkLoop, jobBody]
  | cons c rest ih =>
    intro full prev st
    obtain ⟨t, calls, written, errors⟩ := st
    simp only [chunkLoop, hflag, if_true]
    rw [ih]
    simp only [jobBody, mkPrompt, List.length_cons, List.map_cons, List.nil_append,
      Prod.mk.injEq, St.mk.injEq, List.append_assoc, List.singleton_append,
      and_true, true_and]
    omega

theorem styleLoop_flag_true (cfg : Cfg) (hflag : ∀ n, cfg.flag n = true)
    (sT vT vU : Str) (chunks : List Str) :
    ∀ (prompts : List (Str × Str)) (st : St),
      styleLoop cfg sT vT vU chunks prompts st =
        ({ st with
           t := st.t + prompts.length * chunks.length,
           calls := st.calls
             ++ (prompts.map (fun pr => chunks.map (mkPrompt cfg.output_language pr.2))).flatten,
           written := st.written ++ prompts.map (styleEntry cfg sT vT vU chunks),
           errors := st.errors ++ prompts.filterMap (styleError cfg sT) }, true) := by
  intro prompts
  induction prompts with
  | nil =>
    intro st
    simp [styleLoop]
  | cons pr rest ih =>
    intro st
    obtain ⟨name, sp⟩ := pr
    obtain ⟨t, calls, written, errors⟩ := st
    simp only [styleLoop]
    rw [chunkLoop_flag_true cfg hflag sp chunks (str "") (str "")]
    simp only [doWrite]
    cases hweq : cfg.writeErr (stylePath cfg.output_dir sT name) with
    | none =>
      rw [ih]
      simp only [styleEntry, styleError, hweq, List.map_cons, List.filterMap_cons,
        List.length_cons, List.flatten_cons, List.append_assoc, List.singleton_append,
        Prod.mk.injEq, St.mk.injEq, and_true, true_and]
      ring
    | some k =>
      rw [ih]
      simp only [styleEntry, styleError, hweq, List.map_cons, List.filterMap_cons,
        List.length_cons, List.flatten_cons, List.append_assoc, List.singleton_append,
        Prod.mk.injEq, St.mk.injEq, and_true, true_and]
      ring

theorem doWrite_t_calls (cfg : Cfg) (p a b full : Str) (st : St) :
    (doWrite cfg p a b full st).t = st.t ∧ (doWrite cfg p a b full st).calls = st.calls := by
  unfold doWrite
  cases cfg.writeErr p <;> simp

theorem chunkLoop_written_errors (cfg : Cfg) (sp : Str) :
    ∀ (chunks : List Str) (full prev : Str) (st : St),
      (chunkLoop cfg sp chunks full prev st).1.written = st.written ∧
      (chunkLoop cfg sp chunks full prev st).1.errors = st.errors := by
  intro chunks
  induction chunks with
  | nil => intro full prev st; exact ⟨rfl, rfl⟩
  | cons c rest ih =>
    intro full prev st
    simp only [chunkLoop]
    by_cases hf : cfg.flag st.t = true
    · rw [if_pos hf]; exact ih _ _ _
    · rw [if_neg hf]; exact ⟨rfl, rfl⟩

theorem chunkLoop_some_body (cfg : Cfg) (sp : Str) :
    ∀ (chunks : List Str) (full prev : Str) (st : St) (b : Str),
      (chunkLoop cfg sp chunks full prev st).2 = some b →
      b = jobBody cfg.gen cfg.output_language sp chunks full := by
  intro chunks
  induction chunks with
  | nil =>
    intro full prev st b h
    simp only [chunkLoop, Option.some.injEq] at h
    exact h.symm
  | cons c rest ih =>
    intro full prev st b h
    simp only [chunkLoop] at h
    by_cases hf : cfg.flag st.t = true
    · rw [if_pos hf] at h
      exact ih _ _ _ b h
    · rw [if_neg hf] at h
      simp at h

/-- Invariant used for the cancellation bound: with the single-transition
flag `fun n => decide (n < k)`, the number of issued generation calls never
exceeds the number of flag reads, nor `k`. -/
theorem chunkLoop_calls_invariant (cfg : Cfg) (k : Nat)
    (hflag : ∀ n, cfg.flag n = decide (n < k)) (sp : Str) :
    ∀ (chunks : List Str) (full prev : Str) (st : St),
      st.calls.length ≤ st.t → st.calls.length ≤ k →
      (chunkLoop cfg sp chunks full prev st).1.calls.length
          ≤ (chunkLoop cfg sp chunks full prev st).1.t ∧
      (chunkLoop cfg sp chunks full prev st).1.calls.length ≤ k := by
  intro chunks
  induction chunks with
  | nil => intro full prev st h1 h2; exact ⟨h1, h2⟩
  | cons c rest ih =>
    intro full prev st h1 h2
    simp only [chunkLoop]
    by_cases hf : cfg.flag st.t = true
    · rw [if_pos hf]
      have hklt : st.t < k := by
        have := hflag st.t
        rw [hf] at this
        exact of_decide_eq_true this.symm
      apply ih
      · simp; omega
      · simp; omega
    · rw [if_neg hf]
      exact ⟨by simp; omega, h2⟩

theorem styleLoop_calls_invariant (cfg : Cfg) (k : Nat)
    (hflag : ∀ n, cfg.flag n = decide (n < k)) (sT vT vU : Str) (chunks : List Str) :
    ∀ (prompts : List (Str × Str)) (st : St),
      st.calls.length ≤ st.t → st.calls.length ≤ k →
      (styleLoop cfg sT vT vU chunks prompts st).1.calls.length ≤ k := by
  intro prompts
  induction prompts with
  | nil => intro st h1 h2; exact h2
  | cons pr rest ih =>
    intro st h1 h2
    obtain ⟨name, sp⟩ := pr
    simp only [styleLoop]
    obtain ⟨hc1, hc2⟩ := chunkLoop_calls_invariant cfg k hflag sp chunks (str "") (str "") st h1 h2
    cases hcl : chunkLoop cfg sp chunks (str "") (str "") st with
    | mk st' r =>
      rw [hcl] at hc1 hc2
      cases r with
      | some full =>
        simp only
        apply ih
        · rw [(doWrite_t_calls cfg _ vT vU full st').1,
            (doWrite_t_calls cfg _ vT vU full st').2]
          exact hc1
        · rw [(doWrite_t_calls cfg _ vT vU full st').2]
          exact hc2
      | none => exact hc2

theorem styleLoop_written_complete (cfg : Cfg)
    (hwe : ∀ p, cfg.writeErr p = none) (sT vT vU : Str) (chunks : List Str) :
    ∀ (prompts : List (Str × Str)) (st : St),
      ∀ pc ∈ (styleLoop cfg sT vT vU chunks prompts st).1.written,
        pc ∈ st.written ∨ ∃ pr ∈ prompts,
          pc = (stylePath cfg.output_dir sT pr.1,
                (writeSequence vT vU
                  (jobBody cfg.gen cfg.output_language pr.2 chunks (str ""))).flatten) := by
  intro prompts
  induction prompts with
  | nil => intro st pc hpc; exact Or.inl hpc
  | cons pr rest ih =>
    intro st pc hpc
    obtain ⟨name, sp⟩ := pr
    simp only [styleLoop] at hpc
    cases hcl : chunkLoop cfg sp chunks (str "") (str "") st with
    | mk st' r =>
      rw [hcl] at hpc
      have hw' : st'.written = st.written := by
        have := (chunkLoop_written_errors cfg sp chunks (str "") (str "") st).1
        rw [hcl] at this
        exact this
      cases r with
      | some full =>
        simp only at hpc
        rcases ih _ pc hpc with hmem | ⟨pr', hpr', hpr'eq⟩
        · simp only [doWrite, hwe, hw'] at hmem
          rcases List.mem_append.mp hmem with h1 | h1
          · exact Or.inl h1
          · simp only [List.mem_singleton] at h1
            have hbody : full = jobBody cfg.gen cfg.output_language sp chunks (str "") := by
              apply chunkLoop_some_body cfg sp chunks (str "") (str "") st full
              rw [hcl]
            refine Or.inr ⟨(name, sp), by simp, ?_⟩
            rw [h1, hbody]
        · exact Or.inr ⟨pr', List.mem_cons_of_mem _ hpr', hpr'eq⟩
      | none =>
        simp only at hpc
        rw [hw'] at hpc
        exact Or.inl hpc

/-! ## Lemmas: the per-video loop and the sanitize-call arity error -/

theorem sanitize_call_raises (title : Str) :
    pyCallFunction1 _sanitize_filename [PyVal.threadObj, PyVal.strVal title]
      = Except.error PyExc.typeError := rfl

theorem videosLoop_no_output (cfg : Cfg) :
    ∀ (sections : List Video) (st : St),
      (videosLoop cfg sections st).1.written = st.written ∧
      (videosLoop cfg sections st).1.calls = st.calls := by
  intro sections
  induction sections with
  | nil => intro st; exact ⟨rfl, rfl⟩
  | cons v rest ih =>
    intro st
    simp only [videosLoop]
    by_cases hf : cfg.flag st.t = true
    · rw [if_pos hf]
      by_cases ht : v.transcript = []
      · rw [if_pos ht]; exact ih _
      · rw [if_neg ht]
        exact ⟨rfl, rfl⟩
    · rw [if_neg hf]; exact ⟨rfl, rfl⟩

theorem videosLoop_error (cfg : Cfg) (hflag : ∀ n, cfg.flag n = true) :
    ∀ (sections : List Video) (st : St),
      (∃ v ∈ sections, v.transcript ≠ []) →
      (videosLoop cfg sections st).1.errors
          = st.errors ++ [str "Gemini processing error: TypeError"] ∧
      (videosLoop cfg sections st).2 = false := by
  intro sections
  induction sections with
  | nil => intro st h; simp at h
  | cons v rest ih =>
    intro st h
    simp only [videosLoop, hflag, if_true]
    by_cases ht : v.transcript = []
    · rw [if_pos ht]
      apply ih
      rcases h with ⟨v', hv', hne⟩
      rcases List.mem_cons.mp hv' with h1 | h1
      · exact absurd (h1 ▸ ht) hne
      · exact ⟨v', h1, hne⟩
    · rw [if_neg ht]
      exact ⟨rfl, rfl⟩

/-! ## Lemmas: the filename sanitizer -/

theorem pyReplaceGo_mem (old new : Str) :
    ∀ (fuel : Nat) (s : Str) (c : Char), c ∈ pyReplaceGo old new fuel s → c ∈ new ∨ c ∈ s := by
  intro fuel
  induction fuel with
  | zero =>
    intro s c h
    cases s with
    | nil => simp [pyReplaceGo] at h
    | cons x xs => exact Or.inr h
  | succ fuel ih =>
    intro s c h
    cases s with
    | nil => simp [pyReplaceGo] at h
    | cons x xs =>
      simp only [pyReplaceGo] at h
      by_cases hc : old ≠ [] ∧ startsWith (x :: xs) old = true
      · rw [if_pos hc] at h
        rcases List.mem_append.mp h with h1 | h1
        · exact Or.inl h1
        · rcases ih _ c h1 with h2 | h2
          · exact Or.inl h2
          · exact Or.inr (List.mem_of_mem_drop h2)
      · rw [if_neg hc] at h
        rcases List.mem_cons.mp h with h1 | h1
        · exact Or.inr (h1 ▸ List.mem_cons_self x xs)
        · rcases ih _ c h1 with h2 | h2
          · exact Or.inl h2
          · exact Or.inr (List.mem_cons_of_mem x h2)

theorem startsWith_amp (x : Char) (xs : Str) :
    startsWith (x :: xs) (str "&") = (x == '&') := by
  show (x == '&' && startsWith xs []) = (x == '&')
  rw [startsWith]
  exact Bool.and_true _

theorem pyReplaceGo_amp_free (new : Str) (hnew : '&' ∉ new) :
    ∀ (fuel : Nat) (s : Str), s.length ≤ fuel →
      ∀ c ∈ pyReplaceGo (str "&") new fuel s, c ≠ '&' := by
  intro fuel
  induction fuel with
  | zero =>
    intro s hlen c h
    cases s with
    | nil => simp [pyReplaceGo] at h
    | cons x xs => simp at hlen
  | succ fuel ih =>
    intro s hlen c h
    cases s with
    | nil => simp [pyReplaceGo] at h
    | cons x xs =>
      simp only [pyReplaceGo] at h
      by_cases hx : x = '&'
      · have hcond : (str "&" ≠ [] ∧ startsWith (x :: xs) (str "&") = true) := by
          constructor
          · decide
          · rw [startsWith_amp, hx]; simp
        rw [if_pos hcond] at h
        rcases List.mem_append.mp h with h1 | h1
        · exact fun hc => hnew (hc ▸ h1)
        · have hdrop : (x :: xs).drop (str "&").length = xs := rfl
          rw [hdrop] at h1
          exact ih xs (by simpa using hlen) c h1
      · have hcond : ¬(str "&" ≠ [] ∧ startsWith (x :: xs) (str "&") = true) := by
          intro ⟨_, h2⟩
          rw [startsWith_amp] at h2
          exact hx (by simpa using h2)
        rw [if_neg hcond] at h
        rcases List.mem_cons.mp h with h1 | h1
        · exact h1 ▸ hx
        · exact ih xs (by simpa using hlen) c h1

theorem pyReplaceGo_amp_id (new : Str) :
    ∀ (fuel : Nat) (s : Str), (∀ c ∈ s, c ≠ '&') →
      pyReplaceGo (str "&") new fuel s = s := by
  intro fuel
  induction fuel with
  | zero =>
    intro s h
    cases s with
    | nil => rfl
    | cons x xs => rfl
  | succ fuel ih =>
    intro s h
    cases s with
    | nil => rfl
    | cons x xs =>
      have hx : x ≠ '&' := h x (by simp)
      have hcond : ¬(str "&" ≠ [] ∧ startsWith (x :: xs) (str "&") = true) := by
        intro ⟨_, h2⟩
        rw [startsWith_amp] at h2
        exact hx (by simpa using h2)
      simp only [pyReplaceGo, if_neg hcond]
      rw [ih xs (fun c hc => h c (List.mem_cons_of_mem x hc))]

theorem dropWhile_eq_self_of_none (p : Char → Bool) (l : Str)
    (h : ∀ c ∈ l, p c = false) : l.dropWhile p = l := by
  cases l with
  | nil => rfl
  | cons x xs =>
    rw [List.dropWhile_cons, if_neg]
    rw [h x (by simp)]
    simp

theorem pyStrip_mem (s : Str) : ∀ c ∈ pyStrip s, c ∈ s := by
  intro c h
  unfold pyStrip at h
  rw [List.mem_reverse] at h
  have h1 := (List.dropWhile_sublist (l := (s.dropWhile pyIsSpace).reverse) pyIsSpace).mem h
  rw [List.mem_reverse] at h1
  exact (List.dropWhile_sublist pyIsSpace).mem h1

theorem pyStrip_id (s : Str) (h : ∀ c ∈ s, pyIsSpace c = false) : pyStrip s = s := by
  unfold pyStrip
  rw [dropWhile_eq_self_of_none pyIsSpace s h,
    dropWhile_eq_self_of_none pyIsSpace s.reverse (fun c hc => h c (List.mem_reverse.mp hc)),
    List.reverse_reverse]

theorem collapseWS_mem (s : Str) :
    ∀ x ∈ collapseWS s, x = '_' ∨ (x ∈ s ∧ pyIsSpace x = false) := by
  induction s with
  | nil => intro x hx; simp [collapseWS] at hx
  | cons c t ih =>
    intro x hx
    cases t with
    | nil =>
      by_cases hc : pyIsSpace c = true
      · simp [collapseWS, hc] at hx
        exact Or.inl hx
      · have hc' : pyIsSpace c = false := by simpa using hc
        simp [collapseWS, hc'] at hx
        exact Or.inr ⟨by simp [hx], hx ▸ hc'⟩
    | cons d u =>
      simp only [collapseWS] at hx
      by_cases hc : pyIsSpace c = true
      · rw [if_pos hc] at hx
        by_cases hd : pyIsSpace d = true
        · rw [if_pos hd] at hx
          rcases ih x hx with h1 | ⟨h2, h3⟩
          · exact Or.inl h1
          · exact Or.inr ⟨List.mem_cons_of_mem c h2, h3⟩
        · rw [if_neg hd] at hx
          rcases List.mem_cons.mp hx with h1 | h1
          · exact Or.inl h1
          · rcases ih x h1 with h2 | ⟨h3, h4⟩
            · exact Or.inl h2
            · exact Or.inr ⟨List.mem_cons_of_mem c h3, h4⟩
      · have hc' : pyIsSpace c = false := by simpa using hc
        rw [if_neg (by simp [hc'])] at hx
        rcases List.mem_cons.mp hx with h1 | h1
        · exact Or.inr ⟨by simp [h1], h1 ▸ hc'⟩
        · rcases ih x h1 with h2 | ⟨h3, h4⟩
          · exact Or.inl h2
          · exact Or.inr ⟨List.mem_cons_of_mem c h3, h4⟩

theorem collapseWS_id (s : Str) (h : ∀ c ∈ s, pyIsSpace c = false) :
    collapseWS s = s := by
  induction s with
  | nil => rfl
  | cons c t ih =>
    have hc : pyIsSpace c = false := h c (by simp)
    cases t with
    | nil => simp [collapseWS, hc]
    | cons d u =>
      simp only [collapseWS, hc, Bool.false_eq_true, if_false]
      rw [ih (fun x hx => h x (List.mem_cons_of_mem c hx))]

theorem pyRfind_lt_length (c : Char) :
    ∀ (s : Str) (i : Nat), pyRfind c s = some i → i < s.length := by
  intro s
  induction s with
  | nil => intro i h; simp [pyRfind] at h
  | cons d ds ih =>
    intro i h
    simp only [pyRfind] at h
    cases hr : pyRfind c ds with
    | some j =>
      rw [hr] at h
      simp at h
      have := ih j hr
      simp
      omega
    | none =>
      rw [hr] at h
      by_cases hd : d = c
      · rw [if_pos hd] at h
        simp at h
        simp
        omega
      · rw [if_neg hd] at h
        simp at h

/-- The three character-level properties plus the length bound and
non-emptiness that every sanitizer output enjoys. -/
def SanitizedShape (r : Str) : Prop :=
  (∀ c ∈ r, badChars.contains c = false ∧ c ≠ '&' ∧ pyIsSpace c = false) ∧
    r.length ≤ 200 ∧ r ≠ []

theorem sanitize_shape (f : Str) : SanitizedShape (_sanitize_filename f) := by
  unfold _sanitize_filename
  simp only []
  set s1 := f.filter (fun c => !(badChars.contains c)) with hs1
  set s2 := pyReplace (str "&") (str "and") s1 with hs2
  set s3 := pyStrip s2 with hs3
  set s4 := collapseWS s3 with hs4
  have hmem2 : ∀ c ∈ s2, c ∈ str "and" ∨ c ∈ s1 := by
    intro c hc
    exact pyReplaceGo_mem (str "&") (str "and") s1.length s1 c hc
  have hamp2 : ∀ c ∈ s2, c ≠ '&' := by
    intro c hc
    exact pyReplaceGo_amp_free (str "and") (by decide) s1.length s1 le_rfl c hc
  have hbad2 : ∀ c ∈ s2, badChars.contains c = false := by
    intro c hc
    rcases hmem2 c hc with h1 | h1
    · have handl : str "and" = ['a', 'n', 'd'] := rfl
      rw [handl] at h1
      simp only [List.mem_cons, List.not_mem_nil, or_false] at h1
      rcases h1 with h | h | h <;> subst h <;> decide
    · have := List.mem_filter.mp (hs1 ▸ h1)
      simpa using this.2
  have hprops4 : ∀ c ∈ s4, badChars.contains c = false ∧ c ≠ '&' ∧ pyIsSpace c = false := by
    intro c hc
    rcases collapseWS_mem s3 c hc with h1 | ⟨h2, h3⟩
    · subst h1
      exact ⟨by decide, by decide, by decide⟩
    · have hmem : c ∈ s2 := pyStrip_mem s2 c h2
      exact ⟨hbad2 c hmem, hamp2 c hmem, h3⟩
  by_cases hlong : 200 < s4.length
  · rw [if_pos hlong]
    cases hr : pyRfind '_' (s4.take 200) with
    | some cut =>
      have hcutlt : cut < (s4.take 200).length := pyRfind_lt_length '_' _ cut hr
      have hcut200 : cut ≤ 200 := by
        rw [List.length_take] at hcutlt
        omega
      by_cases hnil : s4.take cut = []
      · rw [if_pos hnil]
        unfold SanitizedShape
        decide
      · rw [if_neg hnil]
        refine ⟨fun c hc => hprops4 c (List.mem_of_mem_take hc), ?_, hnil⟩
        rw [List.length_take]
        omega
    | none =>
      by_cases hnil : s4.take 200 = []
      · rw [if_pos hnil]
        unfold SanitizedShape
        decide
      · rw [if_neg hnil]
        refine ⟨fun c hc => hprops4 c (List.mem_of_mem_take hc), ?_, hnil⟩
        rw [List.length_take]
        omega
  · rw [if_neg hlong]
    by_cases hnil : s4 = []
    · rw [if_pos hnil]
      unfold SanitizedShape
      decide
    · rw [if_neg hnil]
      exact ⟨hprops4, by omega, hnil⟩

theorem sanitize_fixed (r : Str) (h : SanitizedShape r) : _sanitize_filename r = r := by
  obtain ⟨hchars, hlen, hne⟩ := h
  unfold _sanitize_filename
  simp only []
  have h1 : r.filter (fun c => !(badChars.contains c)) = r := by
    rw [List.filter_eq_self]
    intro c hc
    rw [(hchars c hc).1]
    rfl
  rw [h1]
  have h2 : pyReplace (str "&") (str "and") r = r :=
    pyReplaceGo_amp_id (str "and") r.length r (fun c hc => (hchars c hc).2.1)
  rw [h2]
  have h3 : pyStrip r = r := pyStrip_id r (fun c hc => (hchars c hc).2.2)
  rw [h3]
  have h4 : collapseWS r = r := collapseWS_id r (fun c hc => (hchars c hc).2.2)
  rw [h4]
  rw [if_neg (show ¬(200 < r.length) by omega)]
  rw [if_neg hne]

theorem chunkLoop_calls_count (gen : Str → Str) (lang : Str) (cs : Nat)
    (prompts : List (Str × Str)) (we : Str → Option Nat) (od sp : Str)
    (chunks : List Str) :
    (chunkLoop ⟨gen, lang, cs, prompts, fun _ => true, we, od⟩ sp chunks
        (str "") (str "") initSt).1.calls.length = chunks.length := by
  rw [chunkLoop_flag_true _ (fun _ => rfl)]
  simp [initSt]

/-! ## Claim theorems -/

/-- Claim C1: for every video section with a non-empty transcript,
`self._sanitize_filename(video_title)` passes two arguments (the bound
instance plus the title) to the one-parameter `_sanitize_filename`; the
resulting `TypeError` is caught by the outer handler, `error_occurred` is
emitted, and no markdown output file is written for any such video (in
fact for any video at all). -/
theorem C1_sanitize_arity_typeerror (gen : Str → Str) (lang : Str) (cs : Nat)
    (prompts : List (Str × Str)) (we : Str → Option Nat) (od : Str)
    (sections : List Video) :
    let cfg : Cfg := ⟨gen, lang, cs, prompts, fun _ => true, we, od⟩
    (videosLoop cfg sections initSt).1.written = [] ∧
    ((∃ v ∈ sections, v.transcript ≠ []) →
      (videosLoop cfg sections initSt).1.errors
          = [str "Gemini processing error: TypeError"] ∧
      (videosLoop cfg sections initSt).2 = false) := by
  intro cfg
  refine ⟨(videosLoop_no_output cfg sections initSt).1, fun hex => ?_⟩
  obtain ⟨herr, hstop⟩ := videosLoop_error cfg (fun _ => rfl) sections initSt hex
  exact ⟨by simpa [initSt] using herr, hstop⟩

/-- Witness for C1: a concrete one-video run with a non-empty transcript
leaves no output file and emits the TypeError message. -/
theorem C1_sanitize_arity_typeerror_witness :
    (videosLoop ⟨fun _ => [], str "en", 5, [(str "S", str "P")],
        fun _ => true, fun _ => none, str "out"⟩
      [⟨str "T", str "U", str "x"⟩] initSt).1.written = [] ∧
    (videosLoop ⟨fun _ => [], str "en", 5, [(str "S", str "P")],
        fun _ => true, fun _ => none, str "out"⟩
      [⟨str "T", str "U", str "x"⟩] initSt).1.errors
        = [str "Gemini processing error: TypeError"] := by
  have h := C1_sanitize_arity_typeerror (fun _ => []) (str "en") 5
    [(str "S", str "P")] (fun _ => none) (str "out") [⟨str "T", str "U", str "x"⟩]
  exact ⟨h.1, (h.2 ⟨⟨str "T", str "U", str "x"⟩, by simp, by decide⟩).1⟩

/-- Claim C2 counterexample: in a two-chunk job whose generation
collaborator always answers `XYZ`, the prompt sent for the second chunk
does not contain the first chunk's generated output `XYZ` — the claimed
continuation preamble is absent. -/
theorem C2_counterexample :
    containsSeq (str "XYZ")
      (((chunkLoop ⟨fun _ => str "XYZ", str "L", 5, [], fun _ => true,
            fun _ => none, str "o"⟩
          (str "S") [str "a", str "b"] (str "") (str "") initSt).1.calls).getD 1 [])
      = false ∧
    ((chunkLoop ⟨fun _ => str "XYZ", str "L", 5, [], fun _ => true,
          fun _ => none, str "o"⟩
        (str "S") [str "a", str "b"] (str "") (str "") initSt).1.calls).length = 2 := by
  decide

/-- Claim C2 (amended): for every job, the prompt sent for every chunk —
including chunks after the first — is exactly the style template with its
language placeholder substituted, followed by a blank line and the chunk
text; the preceding chunk's generated output is tracked in
`previous_response` but never incorporated (the continuation preamble is
the empty string). -/
theorem C2_prompt_no_continuation (gen : Str → Str) (lang : Str) (cs : Nat)
    (prompts : List (Str × Str)) (we : Str → Option Nat) (od sp : Str)
    (chunks : List Str) :
    (chunkLoop ⟨gen, lang, cs, prompts, fun _ => true, we, od⟩ sp chunks
        (str "") (str "") initSt).1.calls
      = chunks.map (fun c => pyReplace languagePlaceholder lang sp ++ str "\n\n" ++ c) := by
  rw [chunkLoop_flag_true _ (fun _ => rfl) sp chunks]
  simp [initSt, mkPrompt]

/-- Claim C3 counterexample: on a retrieval error other than the two
expected kinds, the speech-to-text collaborator is never invoked — even
when it would have succeeded — and the identifier is skipped; the claimed
fallback attempt does not happen. -/
theorem C3_counterexample :
    (acquireVideo CapResult.otherError (SttResult.ok (str "t"))).sttInvocations = 0 ∧
    (acquireVideo CapResult.otherError (SttResult.ok (str "t"))).written = false ∧
    (acquireVideo CapResult.otherError (SttResult.ok (str "t"))).loggedOther = true :=
  ⟨rfl, rfl, rfl⟩

/-- Claim C3 (amended): a retrieval error other than the two expected
kinds is logged and leaves `transcript = None`, so the identifier is
skipped without any speech-to-text fallback attempt; only
`TranscriptsDisabled` and `NoTranscriptFound` trigger the fallback. -/
theorem C3_other_error_no_fallback (stt : SttResult) :
    acquireVideo CapResult.otherError stt
      = ⟨none, str "Unknown", 0, true, false⟩ ∧
    (acquireVideo CapResult.transcriptsDisabled stt).sttInvocations = 1 ∧
    (acquireVideo CapResult.noTranscriptFound stt).sttInvocations = 1 := by
  refine ⟨rfl, ?_, ?_⟩ <;>
    (cases stt with
     | ok t =>
       by_cases ht : t = [] <;> simp [acquireVideo, ht]
     | returnsNone => rfl
     | raises => rfl)

/-- Claim C4 counterexample: for the 150,000-word transcript with
`chunk_size = 70000`, the chunker does not produce 2 chunks (the
10,000-word tail is not below the 500-word merge floor, so it is not
merged). -/
theorem C4_counterexample :
    (split_text_into_chunks text150k 70000 500).length ≠ 2 := by
  rw [chunks150k_len]
  decide

/-- Claim C4 (amended): for a 150,000-word transcript with
`chunk_size = 70000`, the chunker produces exactly 3 chunks
(70k/70k/10k; the 10,000-word tail is at or above the 500-word
`min_chunk_size`, so no merge happens), and the refinement loop issues
exactly 3 generation calls per selected style. -/
theorem C4_three_chunks (gen : Str → Str) (lang : Str)
    (prompts : List (Str × Str)) (we : Str → Option Nat) (od sp : Str) :
    (split_text_into_chunks text150k 70000 500).length = 3 ∧
    (chunkLoop ⟨gen, lang, 70000, prompts, fun _ => true, we, od⟩ sp
        (split_text_into_chunks text150k 70000 500) (str "") (str "")
        initSt).1.calls.length = 3 := by
  refine ⟨chunks150k_len, ?_⟩
  rw [chunkLoop_calls_count]
  exact chunks150k_len

/-- Claim C5 counterexample: plain concatenation of the returned chunks
does not reproduce the original text exactly — trailing whitespace and
runs of whitespace are lost by the word split and single-space rejoin. -/
theorem C5_counterexample :
    List.flatten (split_text_into_chunks (str "a ") 5 500) ≠ str "a " ∧
    List.flatten (split_text_into_chunks (str "a  b") 5 500) ≠ str "a  b" := by
  decide

/-- Claim C5 (amended): for every text and every positive `maxWords`, the
chunks are a lossless partition of the text's *word sequence*:
concatenating the chunks' word lists in order reproduces `text.split()`
exactly.  (The exact character string is not reproduced: whitespace is
normalised to single spaces.) -/
theorem C5_word_partition (text : Str) (chunk_size min_chunk_size : Nat)
    (h : 0 < chunk_size) :
    ((split_text_into_chunks text chunk_size min_chunk_size).map pySplitW).flatten
      = pySplitW text :=
  chunks_flatten_words text chunk_size min_chunk_size h

/-- Witness for C5: the word-level partition at a concrete input. -/
theorem C5_word_partition_witness :
    0 < 1 ∧
    ((split_text_into_chunks (str "a b") 1 500).map pySplitW).flatten
      = pySplitW (str "a b") :=
  ⟨by decide, C5_word_partition (str "a b") 1 500 (by decide)⟩

/-- Claim C6 counterexample: a 12-word text with `maxWords = 5` and
`minTailWords = 500` yields 3 windows whose 2-word tail is below the
floor; after the merge two chunks remain and the final chunk has only 7
words — below `minTailWords` even though more than one chunk remains. -/
theorem C6_counterexample :
    (wchunks (pySplitW (joinWords (List.replicate 12 (str "a")))) 5).length = 3 ∧
    ((wchunks (pySplitW (joinWords (List.replicate 12 (str "a")))) 5).getLastD []).length = 2 ∧
    (split_text_into_chunks (joinWords (List.replicate 12 (str "a"))) 5 500).length = 2 ∧
    (pySplitW ((split_text_into_chunks (joinWords (List.replicate 12 (str "a")))
        5 500).getLastD [])).length = 7 := by
  decide

/-- Claim C6 (amended): when additionally `minTailWords ≤ maxWords`, the
tail-merge rule guarantees the floor: for every text whose last window is
smaller than `minTailWords` and which yields at least two windows, the
final emitted chunk has at least `minTailWords` words. -/
theorem C6_tail_merge_floor (text : Str) (chunk_size min_chunk_size : Nat)
    (hcs : 0 < chunk_size) (hm : min_chunk_size ≤ chunk_size)
    (h2 : 2 ≤ (wchunks (pySplitW text) chunk_size).length)
    (hlt : ((wchunks (pySplitW text) chunk_size).getLastD []).length < min_chunk_size) :
    min_chunk_size
      ≤ (pySplitW ((split_text_into_chunks text chunk_size
          min_chunk_size).getLastD [])).length :=
  tail_merge_floor text chunk_size min_chunk_size hcs hm h2 hlt

/-- Witness for C6: the merged tail of a 12-word text with windows 5/5/2
and floor 3 has 7 ≥ 3 words. -/
theorem C6_tail_merge_floor_witness :
    3 ≤ (pySplitW ((split_text_into_chunks (joinWords (List.replicate 12 (str "a")))
        5 3).getLastD [])).length :=
  C6_tail_merge_floor (joinWords (List.replicate 12 (str "a"))) 5 3
    (by decide) (by decide) (by decide) (by decide)

/-- Claim C7 counterexample: the document is written directly to its
final path with three sequential writes and no rename; an `IOError` after
the first write leaves a file at the final path that exists (is
non-empty) yet does not contain the complete document. -/
theorem C7_counterexample :
    (styleLoop ⟨fun _ => str "B", str "L", 5, [], fun _ => true,
        fun _ => some 1, str "o"⟩
      (str "T") (str "T") (str "U") [str "c"] [(str "S", str "P")]
      initSt).1.written
      = [(stylePath (str "o") (str "T") (str "S"), str "# T\n\n")] ∧
    str "# T\n\n" ≠ [] ∧
    str "# T\n\n" ≠ (writeSequence (str "T") (str "U")
        (jobBody (fun _ => str "B") (str "L") (str "P") [str "c"] (str ""))).flatten := by
  decide

/-- Claim C7 (amended): every completed (video, style) job writes its
document directly at the final output path (no write-then-rename): on a
clean write the path holds the complete document; when the write raises
after `k` of the three sequential writes, the path holds the
concatenation of the first `k` parts — a partial document — the error is
emitted, and the loop continues with the remaining styles, which are all
still processed. -/
theorem C7_direct_write (gen : Str → Str) (lang : Str) (cs : Nat)
    (we : Str → Option Nat) (od sT vT vU : Str) (chunks : List Str)
    (prompts : List (Str × Str)) :
    let cfg : Cfg := ⟨gen, lang, cs, prompts, fun _ => true, we, od⟩
    styleLoop cfg sT vT vU chunks prompts initSt
      = ({ t := prompts.length * chunks.length,
           calls := (prompts.map (fun pr => chunks.map (mkPrompt lang pr.2))).flatten,
           written := prompts.map (styleEntry cfg sT vT vU chunks),
           errors := prompts.filterMap (styleError cfg sT) }, true) := by
  intro cfg
  rw [styleLoop_flag_true cfg (fun _ => rfl) sT vT vU chunks prompts initSt]
  simp [initSt]

/-- Claim C8: with the cancellation flag turning false after its `k`-th
read (it is read before each chunk, hence at the start of each job), the
refinement loop issues at most `k` generation calls in total, and every
file it writes holds the complete document of a fully processed job — the
partial document of a job in flight when cancellation is observed is
discarded, never written. -/
theorem C8_cancellation (gen : Str → Str) (lang : Str) (cs : Nat)
    (od sT vT vU : Str) (chunks : List Str) (prompts : List (Str × Str))
    (k : Nat) :
    let cfg : Cfg := ⟨gen, lang, cs, prompts, fun n => decide (n < k),
      fun _ => none, od⟩
    (styleLoop cfg sT vT vU chunks prompts initSt).1.calls.length ≤ k ∧
    ∀ pc ∈ (styleLoop cfg sT vT vU chunks prompts initSt).1.written,
      ∃ pr ∈ prompts,
        pc = (stylePath od sT pr.1,
              (writeSequence vT vU (jobBody gen lang pr.2 chunks (str ""))).flatten) := by
  intro cfg
  constructor
  · exact styleLoop_calls_invariant cfg k (fun _ => rfl) sT vT vU chunks prompts
      initSt (by simp [initSt]) (by simp [initSt])
  · intro pc hpc
    rcases styleLoop_written_complete cfg (fun _ => rfl) sT vT vU chunks prompts
      initSt pc hpc with h | h
    · simp [initSt] at h
    · exact h

/-- Witness for C8: a three-chunk job cancelled after one flag read makes
at most one generation call. -/
theorem C8_cancellation_witness :
    (styleLoop ⟨fun _ => str "R", str "L", 5, [(str "S", str "P")],
        fun n => decide (n < 1), fun _ => none, str "o"⟩
      (str "T") (str "T") (str "U") [str "c1", str "c2", str "c3"]
      [(str "S", str "P")] initSt).1.calls.length ≤ 1 :=
  (C8_cancellation (fun _ => str "R") (str "L") 5 (str "o") (str "T") (str "T")
    (str "U") [str "c1", str "c2", str "c3"] [(str "S", str "P")] 1).1

/-- Claim C9: when direct caption retrieval fails with captions-disabled
or no-captions-found, the speech-to-text collaborator is invoked exactly
once for that identifier, and if it returns a (non-empty) transcript the
record's source is tagged `AI STT Fallback` and the record is written. -/
theorem C9_fallback_once (cap : CapResult) (stt : SttResult)
    (hcap : cap = CapResult.transcriptsDisabled ∨ cap = CapResult.noTranscriptFound) :
    (acquireVideo cap stt).sttInvocations = 1 ∧
    (∀ t, stt = SttResult.ok t → t ≠ [] →
      (acquireVideo cap stt).transcript_source = str "AI STT Fallback" ∧
      (acquireVideo cap stt).written = true) := by
  rcases hcap with h | h <;> subst h <;>
    refine ⟨?_, ?_⟩ <;>
    first
    | (cases stt with
       | ok t => by_cases ht : t = [] <;> simp [acquireVideo, ht]
       | returnsNone => rfl
       | raises => rfl)
    | (intro t heq hne
       subst heq
       simp [acquireVideo, hne])

/-- Witness for C9: a disabled-captions response with a successful
speech-to-text result invokes the collaborator once and tags the source. -/
theorem C9_fallback_once_witness :
    (acquireVideo CapResult.transcriptsDisabled (SttResult.ok (str "x"))).sttInvocations = 1 ∧
    (acquireVideo CapResult.transcriptsDisabled
        (SttResult.ok (str "x"))).transcript_source = str "AI STT Fallback" := by
  have h := C9_fallback_once CapResult.transcriptsDisabled (SttResult.ok (str "x"))
    (Or.inl rfl)
  exact ⟨h.1, (h.2 (str "x") rfl (by decide)).1⟩

/-- Claim C10: the filename sanitizer is idempotent — applying it to its
own output returns that output unchanged. -/
theorem C10_sanitizer_idempotent (s : Str) :
    _sanitize_filename (_sanitize_filename s) = _sanitize_filename s :=
  sanitize_fixed _ (sanitize_shape s)

end GetOutVideo

